import Mathlib

/-!
Verification of the subtitle-cleaning pipeline in
`src/youtube-content-processor/src/clean_transcript.py`.

The Python source is shallowly embedded: each transformation stage of
`aggressive_clean_vtt` becomes a computable Lean function over `List Char`
(strings) and `ℚ` (the float arithmetic of the timestamp synthesizer, whose
relevant equalities are exact), and the top-level entry point becomes a
function from the argument vector to an action datatype.
-/

namespace CleanTranscript

/-- Whitespace characters recognised by Python `str.strip` / `str.split` /
the regex class `\s` (restricted to the ASCII range used by caption text). -/
def isWs (c : Char) : Bool :=
  c == ' ' || c == '\t' || c == '\n' || c == '\r' || c == Char.ofNat 11 || c == Char.ofNat 12

/-- Strip trailing whitespace: embeds the right half of Python `str.strip()`. -/
def rstrip (l : List Char) : List Char :=
  (l.reverse.dropWhile isWs).reverse

/-- Python `str.strip()`: drop leading and trailing whitespace. -/
def pyStrip (l : List Char) : List Char :=
  rstrip (l.dropWhile isWs)

/-- Worker for `collapseWs`.  The flag records whether the previous input
character was whitespace (so that a run contributes one single `' '`). -/
def collapseGo : Bool → List Char → List Char
  | _, [] => []
  | prevWs, c :: rest =>
    if isWs c then
      if prevWs then collapseGo true rest else ' ' :: collapseGo true rest
    else c :: collapseGo false rest

/-- Python `re.sub(r'\s+', ' ', s)`: replace each maximal whitespace run
by a single space. -/
def collapseWs (l : List Char) : List Char := collapseGo false l

/-- Python `re.sub(r'\s+', ' ', s).strip()`, the combination used on every
cleaned line and on the rejoined deduplicated text. -/
def squash (l : List Char) : List Char := pyStrip (collapseWs l)

/-- Worker for `removeTags`.  `pend = some buf` means a `'<'` has been read
and not yet closed; `buf` holds the pending characters in reverse.  If the
tag never closes the pending characters are flushed verbatim, matching the
fact that `re.sub(r'<[^>]*>', '', s)` only deletes `'<' … '>'` spans that
actually close. -/
def removeTagsGo : Option (List Char) → List Char → List Char
  | none, [] => []
  | some buf, [] => buf.reverse
  | none, c :: rest =>
    if c = '<' then removeTagsGo (some ['<']) rest else c :: removeTagsGo none rest
  | some buf, c :: rest =>
    if c = '>' then removeTagsGo none rest else removeTagsGo (some (c :: buf)) rest

/-- Python `re.sub(r'<[^>]*>', '', s)`: delete every (leftmost, shortest)
`<...>` span. -/
def removeTags (l : List Char) : List Char := removeTagsGo none l

/-- `true` iff no `'<'` in `l` is followed by a later `'>'`, i.e. the regex
`<[^>]*>` has no match in `l`. -/
def noTagB : List Char → Bool
  | [] => true
  | c :: rest => if c = '<' then !(rest.any (fun d => d == '>')) else noTagB rest

/-- Python `pat in s` (substring containment). -/
def containsSub (pat : List Char) : List Char → Bool
  | [] => pat.isPrefixOf ([] : List Char)
  | c :: rest => pat.isPrefixOf (c :: rest) || containsSub pat rest

/-- Python `str.isdigit()` (ASCII caption cue indices). -/
def pyIsDigit (l : List Char) : Bool := !l.isEmpty && l.all Char.isDigit

def webvttChars : List Char := "WEBVTT".data
def kindChars : List Char := "Kind:".data
def langChars : List Char := "Language:".data
def arrowChars : List Char := "-->".data

/-- The discard test of the normalizer, applied to the stripped line: header
prefixes `WEBVTT` / `Kind:` / `Language:`, timestamp arrow `-->`, or a purely
numeric cue index. -/
def headerish (l : List Char) : Bool :=
  webvttChars.isPrefixOf l || kindChars.isPrefixOf l || langChars.isPrefixOf l ||
    containsSub arrowChars l || pyIsDigit l

/-- One iteration of the first loop of `aggressive_clean_vtt`: strip the raw
line, discard empty/header/arrow/numeric lines, remove markup tags, collapse
whitespace, and keep the result only if longer than 2 characters. -/
def keepLineL (raw : List Char) : Option (List Char) :=
  let l := pyStrip raw
  if l = [] || headerish l then none
  else
    let c := squash (removeTags l)
    if !c.isEmpty && decide (c.length > 2) then some c else none

/-- Python `s.split('\n')` (keeps empty pieces, like the source's
`vtt_content.split('\n')`). -/
def splitNl : List Char → List (List Char)
  | [] => [[]]
  | c :: rest =>
    if c = '\n' then [] :: splitNl rest
    else
      match splitNl rest with
      | [] => [[c]]
      | w :: ws => (c :: w) :: ws

/-- Stage 1 of `aggressive_clean_vtt`: the `text_lines` list. -/
def cleanLinesL (payload : List Char) : List (List Char) :=
  (splitNl payload).filterMap keepLineL

/-- Stage 1 at `String` level. -/
def cleanLines (payload : String) : List String :=
  (cleanLinesL payload.data).map String.mk

/-- Python `re.sub(r'[^\w]', '', word.lower())`: the normalized key used for
dedup comparisons. -/
def normKey (w : List Char) : List Char :=
  (w.map Char.toLower).filter (fun c => c.isAlphanum || c == '_')

/-- Worker for `pySplit`; `cur` holds the characters of the current word in
reverse. -/
def pySplitGo : List Char → List Char → List (List Char)
  | cur, [] => if cur = [] then [] else [cur.reverse]
  | cur, c :: rest =>
    if isWs c then
      if cur = [] then pySplitGo [] rest else cur.reverse :: pySplitGo [] rest
    else pySplitGo (c :: cur) rest

/-- Python `str.split()` with no separator: split on whitespace runs,
dropping empty pieces. -/
def pySplit (l : List Char) : List (List Char) := pySplitGo [] l

/-- Python `' '.join(ws)`. -/
def joinSp : List (List Char) → List Char
  | [] => []
  | [w] => w
  | w :: x :: xs => w ++ ' ' :: joinSp (x :: xs)

/-- Python `'\n'.join(ls)` (used only to re-feed cleaned lines to the
normalizer when checking idempotence). -/
def joinNl : List (List Char) → List Char
  | [] => []
  | [w] => w
  | w :: x :: xs => w ++ '\n' :: joinNl (x :: xs)

/-- An implementation of the unordered `set` used for `seen_words`: any type
with an empty value, insertion and membership satisfying the two membership
laws of a finite set.  The pipeline is proved to behave identically for every
such implementation. -/
structure SetImpl where
  carrier : Type
  emptyS : carrier
  insertS : List Char → carrier → carrier
  memS : List Char → carrier → Bool
  mem_empty : ∀ k, memS k emptyS = false
  mem_insert : ∀ k k' s, memS k (insertS k' s) = (k == k' || memS k s)

/-- The inner loop of the dedup stage: walk the words of one line, keeping a
word exactly when its normalized key is non-empty and unseen; returns the
surviving words together with the updated seen-set. -/
def dedupWords (S : SetImpl) : S.carrier → List (List Char) → List (List Char) × S.carrier
  | seen, [] => ([], seen)
  | seen, w :: ws =>
    let k := normKey w
    if !k.isEmpty && !(S.memS k seen) then
      let r := dedupWords S (S.insertS k seen) ws
      (w :: r.1, r.2)
    else dedupWords S seen ws

/-- The outer loop of the dedup stage: lines in order, words within each line
in order, threading the seen-set through. -/
def dedupLines (S : SetImpl) : S.carrier → List (List Char) → List (List Char)
  | _, [] => []
  | seen, line :: rest =>
    let r := dedupWords S seen (pySplit line)
    r.1 ++ dedupLines S r.2 rest

/-- The list-backed set used as the reference implementation of `seen_words`. -/
def listSet : SetImpl where
  carrier := List (List Char)
  emptyS := []
  insertS := fun k s => k :: s
  memS := fun k s => s.any (fun x => x == k)
  mem_empty := fun _ => rfl
  mem_insert := by
    intro k k' s
    simp [List.any_cons, Bool.or_comm]
    rw [BEq.comm]

/-- Stage 2 of `aggressive_clean_vtt` (`unique_words`), with the seen-set
implementation as a parameter. -/
def uniqueWordsWith (S : SetImpl) (text_lines : List (List Char)) : List (List Char) :=
  dedupLines S S.emptyS text_lines

/-- Stage 2 with the reference seen-set. -/
def uniqueWordsL (text_lines : List (List Char)) : List (List Char) :=
  uniqueWordsWith listSet text_lines

/-- Python `s[0].upper() + s[1:]` guarded by `if s:`. -/
def capFirst : List Char → List Char
  | [] => []
  | c :: rest => c.toUpper :: rest

/-- Stages 2–3 glue: `' '.join(unique_words)`, whitespace re-collapse, strip
and capitalization, producing `result_text`. -/
def resultTextWith (S : SetImpl) (text_lines : List (List Char)) : List Char :=
  capFirst (squash (joinSp (uniqueWordsWith S text_lines)))

/-- `word.endswith(('.', '!', '?'))`. -/
def endsPunctW (w : List Char) : Bool :=
  match w.getLast? with
  | some c => c == '.' || c == '!' || c == '?'
  | none => false

/-- Worker for the segmenter (stage 4): accumulate words in `cur`, closing the
buffer when the appended word ends in sentence punctuation or the joined
buffer exceeds 50 characters; flush a non-empty buffer at the end. -/
def splitSentencesGo : List (List Char) → List (List Char) → List String
  | cur, [] =>
    let st := pyStrip (joinSp cur)
    if st ≠ [] then [String.mk st] else []
  | cur, w :: rest =>
    let cur' := cur ++ [w]
    if endsPunctW w || decide ((joinSp cur').length > 50) then
      let st := pyStrip (joinSp cur')
      if st ≠ [] then String.mk st :: splitSentencesGo [] rest
      else splitSentencesGo [] rest
    else splitSentencesGo cur' rest

/-- Stage 4 of `aggressive_clean_vtt`: the `sentences` list. -/
def splitSentences (t : String) : List String :=
  splitSentencesGo [] (pySplit t.data)

/-- The closing condition of the segmenter, expressed on a whole buffer:
its last word ends in `.`/`!`/`?`, or its space-joined length exceeds 50. -/
def closeTrig (buf : List (List Char)) : Bool :=
  (match buf.getLast? with
   | some w => endsPunctW w
   | none => false) || decide ((joinSp buf).length > 50)

/-- The segmenter at the level of word chunks (no string rendering): used to
state conservation and boundary properties of stage 4. -/
def chunkGo : List (List Char) → List (List Char) → List (List (List Char))
  | buf, [] => if buf = [] then [] else [buf]
  | buf, w :: rest =>
    let buf' := buf ++ [w]
    if closeTrig buf' then buf' :: chunkGo [] rest else chunkGo buf' rest

def chunkWords (ws : List (List Char)) : List (List (List Char)) := chunkGo [] ws

/-- The fixed total duration constant of the synthesizer (`total_duration`). -/
def total_duration : ℚ := 144

/-- The output unit of the pipeline (`text`/`start`/`end`/`duration`;
`end` is a Lean keyword, hence `endT`). -/
structure Segment where
  text : String
  start : ℚ
  endT : ℚ
  duration : ℚ
  deriving DecidableEq, Repr

/-- Python `str.strip` at `String` level. -/
def pyStripS (s : String) : String := String.mk (pyStrip s.data)

/-- Worker for stage 5: `for i, sentence in enumerate(sentences)` with the
`if sentence.strip():` guard; `none` models a `ZeroDivisionError`, raised iff
a division is executed with `len(sentences) = 0`. -/
def synthesizeGo (n : Nat) : Nat → List String → Option (List Segment)
  | _, [] => some []
  | i, s :: rest =>
    if pyStripS s ≠ "" then
      if n = 0 then none
      else
        match synthesizeGo n (i + 1) rest with
        | none => none
        | some segs =>
          some ({ text := pyStripS s,
                  start := (i * total_duration) / n,
                  endT := ((i + 1) * total_duration) / n,
                  duration := ((i + 1) * total_duration) / n - (i * total_duration) / n } :: segs)
    else synthesizeGo n (i + 1) rest

/-- Stage 5 of `aggressive_clean_vtt`: synthetic timestamps. -/
def synthesize (sentences : List String) : Option (List Segment) :=
  synthesizeGo sentences.length 0 sentences

/-- The whole of `aggressive_clean_vtt`, parameterized by the seen-set
implementation used in the dedup stage. -/
def aggressiveCleanVttWith (S : SetImpl) (vtt_content : String) : Option (List Segment) :=
  let text_lines := cleanLinesL vtt_content.data
  if text_lines = [] then some []
  else
    let result_text := resultTextWith S text_lines
    let sentences := splitSentences (String.mk result_text)
    synthesize sentences

/-- `aggressive_clean_vtt` with the reference seen-set implementation. -/
def aggressive_clean_vtt (vtt_content : String) : Option (List Segment) :=
  aggressiveCleanVttWith listSet vtt_content

/-- What the `__main__` block does before any network access. -/
inductive MainAction where
  | usageExit : Nat → String → MainAction
  | runClean : String → String → MainAction
  deriving DecidableEq

def usageMsg : String := "Usage: python clean_transcript.py <video_url> <language>"

/-- The `if len(sys.argv) != 3` guard of the `__main__` block: `sysArgv`
models `sys.argv` (script name first, then positional arguments). -/
def mainEntry (sysArgv : List String) : MainAction :=
  if sysArgv.length ≠ 3 then .usageExit 1 usageMsg
  else .runClean (sysArgv.getD 1 "") (sysArgv.getD 2 "")

/-- Modelled from the spec's dedup contract, for comparison with the code:
keep a word exactly when its normalized key is non-empty and no earlier word
of the stream has the same key (`prev` is the already-read stream). -/
def dedupSpecGo : List (List Char) → List (List Char) → List (List Char)
  | _, [] => []
  | prev, w :: rest =>
    if !(normKey w).isEmpty && !(prev.any (fun p => normKey p == normKey w)) then
      w :: dedupSpecGo (prev ++ [w]) rest
    else dedupSpecGo (prev ++ [w]) rest

def dedupSpec (ws : List (List Char)) : List (List Char) := dedupSpecGo [] ws

/-- Modelled from the spec's normalizer contract as C5 states it, with the
spec's *two* header prefixes (`Kind:`, `Language:` — the data model's "header
metadata"): keep a stripped line iff it is non-empty, starts with neither
prefix, is not purely numeric, lacks the arrow, and cleans to length > 2. -/
def keepLineSpecTwo (raw : List Char) : Option (List Char) :=
  let l := pyStrip raw
  let c := squash (removeTags l)
  if !l.isEmpty && !(kindChars.isPrefixOf l) && !(langChars.isPrefixOf l) &&
      !(pyIsDigit l) && !(containsSub arrowChars l) && decide (c.length > 2) then
    some c
  else none

/-- The normalizer rule of C5 amended to the three header prefixes the code
actually tests (`WEBVTT`, `Kind:`, `Language:`). -/
def keepLineSpecThree (raw : List Char) : Option (List Char) :=
  let l := pyStrip raw
  let c := squash (removeTags l)
  if !l.isEmpty && !(webvttChars.isPrefixOf l) && !(kindChars.isPrefixOf l) &&
      !(langChars.isPrefixOf l) && !(pyIsDigit l) && !(containsSub arrowChars l) &&
      decide (c.length > 2) then
    some c
  else none

/-! ### Whitespace and strip lemmas -/

theorem head?_dropWhile_not {p : Char → Bool} {l : List Char} {d : Char}
    (h : (l.dropWhile p).head? = some d) : p d = false := by
  induction l with
  | nil => simp at h
  | cons c rest ih =>
    rw [List.dropWhile_cons] at h
    split at h
    · exact ih h
    · simp_all

theorem dropWhile_eq_self_of_head {p : Char → Bool} {l : List Char}
    (h : ∀ d, l.head? = some d → p d = false) : l.dropWhile p = l := by
  cases l with
  | nil => rfl
  | cons c rest => rw [List.dropWhile_cons, h c rfl]; simp

/-- `rstrip l` is a prefix of `l`, with the stripped tail made explicit. -/
theorem rstrip_append (l : List Char) :
    l = rstrip l ++ (l.reverse.takeWhile isWs).reverse := by
  unfold rstrip
  rw [← List.reverse_append, List.takeWhile_append_dropWhile, List.reverse_reverse]

theorem head?_rstrip {l : List Char} (h : rstrip l ≠ []) : (rstrip l).head? = l.head? := by
  conv_rhs => rw [rstrip_append l]
  exact (List.head?_append_of_ne_nil _ h).symm

theorem getLast?_rstrip_not {l : List Char} {d : Char}
    (h : (rstrip l).getLast? = some d) : isWs d = false := by
  unfold rstrip at h
  rw [← List.head?_reverse, List.reverse_reverse] at h
  exact head?_dropWhile_not h

theorem rstrip_eq_self_of_getLast {l : List Char}
    (h : ∀ d, l.getLast? = some d → isWs d = false) : rstrip l = l := by
  unfold rstrip
  rw [dropWhile_eq_self_of_head, List.reverse_reverse]
  intro d hd
  rw [List.head?_reverse] at hd
  exact h d hd

theorem rstrip_rstrip (l : List Char) : rstrip (rstrip l) = rstrip l := by
  unfold rstrip
  rw [List.reverse_reverse, List.dropWhile_idempotent]

theorem pyStrip_eq_self_of_ends {l : List Char}
    (h1 : ∀ d, l.head? = some d → isWs d = false)
    (h2 : ∀ d, l.getLast? = some d → isWs d = false) : pyStrip l = l := by
  unfold pyStrip
  rw [dropWhile_eq_self_of_head h1, rstrip_eq_self_of_getLast h2]

theorem pyStrip_idem (l : List Char) : pyStrip (pyStrip l) = pyStrip l := by
  unfold pyStrip
  by_cases hn : rstrip (List.dropWhile isWs l) = []
  · rw [hn]; rfl
  · rw [dropWhile_eq_self_of_head, rstrip_rstrip]
    intro d hd
    rw [head?_rstrip hn] at hd
    exact head?_dropWhile_not hd

theorem head?_pyStrip_not {l : List Char} {d : Char}
    (h : (pyStrip l).head? = some d) : isWs d = false := by
  unfold pyStrip at h
  by_cases hn : rstrip (List.dropWhile isWs l) = []
  · rw [hn] at h; simp at h
  · rw [head?_rstrip hn] at h
    exact head?_dropWhile_not h

theorem getLast?_pyStrip_not {l : List Char} {d : Char}
    (h : (pyStrip l).getLast? = some d) : isWs d = false :=
  getLast?_rstrip_not h

/-! ### Collapsed-whitespace invariants -/

/-- Every whitespace character is a plain `' '` and is followed by a
non-whitespace character (or the end): the shape `re.sub(r'\s+', ' ', ·)`
guarantees. -/
def spaced : List Char → Bool
  | [] => true
  | c :: rest =>
    (if isWs c then
      c == ' ' && (match rest.head? with | some d => !isWs d | none => true)
     else true) && spaced rest

theorem spaced_tail {c : Char} {rest : List Char} (h : spaced (c :: rest) = true) :
    spaced rest = true := by
  unfold spaced at h
  exact (Bool.and_eq_true _ _ |>.mp h).2

theorem spaced_ws_space {l : List Char} (h : spaced l = true) :
    ∀ c ∈ l, isWs c = true → c = ' ' := by
  induction l with
  | nil => intro c hc; simp at hc
  | cons a rest ih =>
    intro c hc hw
    rcases List.mem_cons.mp hc with rfl | hc'
    · unfold spaced at h
      rw [if_pos hw] at h
      simp only [Bool.and_eq_true, beq_iff_eq] at h
      exact h.1.1
    · exact ih (spaced_tail h) c hc' hw

theorem head?_collapseGo_true {l : List Char} {d : Char}
    (h : (collapseGo true l).head? = some d) : isWs d = false := by
  induction l with
  | nil => simp [collapseGo] at h
  | cons c rest ih =>
    unfold collapseGo at h
    by_cases hw : isWs c
    · rw [if_pos hw, if_pos rfl] at h
      exact ih h
    · rw [if_neg hw] at h
      simp only [List.head?_cons, Option.some.injEq] at h
      subst h
      simpa using hw

theorem spaced_collapseGo (l : List Char) : ∀ b, spaced (collapseGo b l) = true := by
  induction l with
  | nil => intro b; rfl
  | cons c rest ih =>
    intro b
    unfold collapseGo
    by_cases hw : isWs c
    · rw [if_pos hw]
      by_cases hb : b
      · rw [if_pos hb]; exact ih true
      · rw [if_neg hb]
        unfold spaced
        simp only [Bool.and_eq_true]
        refine ⟨?_, ih true⟩
        have hws : isWs ' ' = true := by decide
        rw [if_pos hws]
        simp only [Bool.and_eq_true, beq_self_eq_true, true_and]
        cases hh : (collapseGo true rest).head? with
        | none => simp
        | some d => simp [head?_collapseGo_true hh]
    · rw [if_neg hw]
      unfold spaced
      simp only [Bool.and_eq_true]
      exact ⟨by rw [if_neg hw], ih false⟩

theorem spaced_dropWhile {p : Char → Bool} {l : List Char} (h : spaced l = true) :
    spaced (l.dropWhile p) = true := by
  induction l with
  | nil => exact h
  | cons c rest ih =>
    rw [List.dropWhile_cons]
    split
    · exact ih (spaced_tail h)
    · exact h

theorem spaced_append_left {a b : List Char} (h : spaced (a ++ b) = true) :
    spaced a = true := by
  induction a with
  | nil => rfl
  | cons c rest ih =>
    unfold spaced
    rw [List.cons_append] at h
    unfold spaced at h
    simp only [Bool.and_eq_true] at h ⊢
    refine ⟨?_, ih h.2⟩
    rcases h with ⟨h1, _⟩
    by_cases hw : isWs c
    · rw [if_pos hw] at h1 ⊢
      simp only [Bool.and_eq_true] at h1 ⊢
      refine ⟨h1.1, ?_⟩
      cases hr : rest.head? with
      | none => simp
      | some d =>
        have : (rest ++ b).head? = some d := by
          cases rest with
          | nil => simp at hr
          | cons x xs => simpa using hr
        rw [this] at h1
        exact h1.2
    · rw [if_neg hw]

theorem spaced_rstrip {l : List Char} (h : spaced l = true) : spaced (rstrip l) = true := by
  have hd := rstrip_append l
  exact spaced_append_left (hd ▸ h)

theorem spaced_pyStrip {l : List Char} (h : spaced l = true) : spaced (pyStrip l) = true :=
  spaced_rstrip (spaced_dropWhile h)

theorem spaced_squash (l : List Char) : spaced (squash l) = true :=
  spaced_pyStrip (spaced_collapseGo l false)

theorem collapseGo_eq_self {l : List Char} (h : spaced l = true) :
    ∀ b, (b = true → ∀ d, l.head? = some d → isWs d = false) → collapseGo b l = l := by
  induction l with
  | nil => intro b _; rfl
  | cons c rest ih =>
    intro b hb
    unfold collapseGo
    by_cases hw : isWs c
    · have hc : c = ' ' := spaced_ws_space h c (List.mem_cons_self _ _) hw
      have hbf : b = false := by
        cases b with
        | false => rfl
        | true => exact absurd (hb rfl c rfl) (by simp [hw])
      rw [if_pos hw, hbf, if_neg (by simp)]
      have hrest : ∀ d, rest.head? = some d → isWs d = false := by
        intro d hd
        unfold spaced at h
        rw [if_pos hw, hd] at h
        simp only [Bool.and_eq_true, beq_iff_eq, Bool.not_eq_true'] at h
        exact h.1.2
      rw [ih (spaced_tail h) true (fun _ => hrest), hc]
    · rw [if_neg hw, ih (spaced_tail h) false (by simp)]

theorem squash_eq_self {l : List Char} (h : spaced l = true) (hs : pyStrip l = l) :
    squash l = l := by
  unfold squash collapseWs
  rw [collapseGo_eq_self h false (by simp), hs]

theorem pyStrip_squash (l : List Char) : pyStrip (squash l) = squash l :=
  pyStrip_idem _

/-! ### Tag-removal lemmas -/

/-- Drop through the first `'>'` (the suffix the regex engine continues on). -/
def afterGt : List Char → List Char
  | [] => []
  | c :: rest => if c = '>' then rest else afterGt rest

theorem afterGt_length_le (l : List Char) : (afterGt l).length ≤ l.length := by
  induction l with
  | nil => exact Nat.le_refl _
  | cons c rest ih =>
    unfold afterGt
    split
    · exact Nat.le_succ_of_le (Nat.le_refl _)
    · exact Nat.le_succ_of_le ih

theorem removeTagsGo_some_no_gt {l : List Char}
    (h : l.any (fun d => d == '>') = false) (buf : List Char) :
    removeTagsGo (some buf) l = buf.reverse ++ l := by
  induction l generalizing buf with
  | nil => simp [removeTagsGo]
  | cons c rest ih =>
    rw [List.any_cons] at h
    have hc : ¬ (c = '>') := by
      intro hc; subst hc; simp at h
    have hr : rest.any (fun d => d == '>') = false := by
      rcases Bool.or_eq_false_iff.mp h with ⟨_, h2⟩; exact h2
    show removeTagsGo (some buf) (c :: rest) = buf.reverse ++ c :: rest
    unfold removeTagsGo
    rw [if_neg hc, ih hr]
    simp

theorem removeTagsGo_some_gt {l : List Char}
    (h : l.any (fun d => d == '>') = true) (buf : List Char) :
    removeTagsGo (some buf) l = removeTagsGo none (afterGt l) := by
  induction l generalizing buf with
  | nil => simp at h
  | cons c rest ih =>
    have ha : afterGt (c :: rest) = if c = '>' then rest else afterGt rest := rfl
    have hgo : removeTagsGo (some buf) (c :: rest) =
        if c = '>' then removeTagsGo none rest else removeTagsGo (some (c :: buf)) rest := rfl
    rw [ha, hgo]
    by_cases hc : c = '>'
    · rw [if_pos hc, if_pos hc]
    · rw [if_neg hc, if_neg hc]
      apply ih
      rw [List.any_cons] at h
      rcases Bool.or_eq_true_iff.mp h with h1 | h2
      · exact absurd (by simpa using h1) hc
      · exact h2

theorem noTagB_removeTagsGo_none : ∀ n l, l.length ≤ n → noTagB (removeTagsGo none l) = true := by
  intro n
  induction n with
  | zero =>
    intro l hl
    have : l = [] := List.length_eq_zero.mp (Nat.le_zero.mp hl)
    subst this; rfl
  | succ n ih =>
    intro l hl
    cases l with
    | nil => rfl
    | cons c rest =>
      have hrl : rest.length ≤ n := Nat.le_of_succ_le_succ (by simpa using hl)
      by_cases hc : c = '<'
      · subst hc
        show noTagB (removeTagsGo (some ['<']) rest) = true
        by_cases hg : rest.any (fun d => d == '>') = true
        · rw [removeTagsGo_some_gt hg]
          exact ih _ (Nat.le_trans (afterGt_length_le rest) hrl)
        · have hgf : rest.any (fun d => d == '>') = false := Bool.eq_false_iff.mpr hg
          rw [removeTagsGo_some_no_gt hgf]
          show noTagB ('<' :: rest) = true
          unfold noTagB
          rw [if_pos rfl, hgf]
          rfl
      · show noTagB (if c = '<' then removeTagsGo (some ['<']) rest
            else c :: removeTagsGo none rest) = true
        rw [if_neg hc]
        unfold noTagB
        rw [if_neg hc]
        exact ih rest hrl

theorem noTagB_removeTags (l : List Char) : noTagB (removeTags l) = true :=
  noTagB_removeTagsGo_none l.length l (Nat.le_refl _)

theorem removeTags_eq_self {l : List Char} (h : noTagB l = true) : removeTags l = l := by
  show removeTagsGo none l = l
  induction l with
  | nil => rfl
  | cons c rest ih =>
    unfold removeTagsGo
    by_cases hc : c = '<'
    · rw [if_pos hc]
      subst hc
      unfold noTagB at h
      rw [if_pos rfl] at h
      have hg : rest.any (fun d => d == '>') = false := by simpa using h
      rw [removeTagsGo_some_no_gt hg]
      rfl
    · rw [if_neg hc]
      unfold noTagB at h
      rw [if_neg hc] at h
      rw [ih h]

theorem any_filter_of_imp {p q : Char → Bool} (hpq : ∀ x, q x = true → p x = true) :
    ∀ l : List Char, (l.filter p).any q = l.any q := by
  intro l
  induction l with
  | nil => rfl
  | cons c rest ih =>
    rw [List.filter_cons]
    by_cases hpc : p c = true
    · rw [if_pos hpc, List.any_cons, List.any_cons, ih]
    · rw [if_neg hpc]
      have hq : q c = false := by
        cases hqc : q c with
        | false => rfl
        | true => exact absurd (hpq c hqc) hpc
      rw [List.any_cons, hq, ih]
      simp

def isAngle (c : Char) : Bool := c == '<' || c == '>'

theorem isWs_angle_false : ∀ c, isWs c = true → isAngle c = false := by
  intro c h
  simp only [isWs, Bool.or_eq_true, beq_iff_eq] at h
  rcases h with ((((h | h) | h) | h) | h) | h <;> subst h <;> decide

theorem filter_collapseGo {p : Char → Bool} (hp : ∀ c, isWs c = true → p c = false) :
    ∀ (l : List Char) (b : Bool), (collapseGo b l).filter p = l.filter p := by
  intro l
  induction l with
  | nil => intro b; rfl
  | cons c rest ih =>
    intro b
    unfold collapseGo
    by_cases hw : isWs c = true
    · rw [if_pos hw]
      have hpc : p c = false := hp c hw
      have hsp : p ' ' = false := hp ' ' (by decide)
      by_cases hb : b
      · rw [if_pos hb, ih true, List.filter_cons, hpc]; simp
      · rw [if_neg hb, List.filter_cons, hsp]
        simp only [if_neg (by simp : ¬ (false = true))]
        rw [ih true, List.filter_cons, hpc]
        simp
    · rw [if_neg hw, List.filter_cons, List.filter_cons, ih false]

theorem filter_dropWhileWs {p : Char → Bool} (hp : ∀ c, isWs c = true → p c = false) :
    ∀ l : List Char, (l.dropWhile isWs).filter p = l.filter p := by
  intro l
  induction l with
  | nil => rfl
  | cons c rest ih =>
    rw [List.dropWhile_cons]
    by_cases hw : isWs c = true
    · rw [if_pos hw, ih, List.filter_cons, hp c hw]
      simp
    · rw [if_neg hw]

theorem filter_rstrip {p : Char → Bool} (hp : ∀ c, isWs c = true → p c = false)
    (l : List Char) : (rstrip l).filter p = l.filter p := by
  unfold rstrip
  rw [List.filter_reverse, filter_dropWhileWs hp, List.filter_reverse, List.reverse_reverse]

theorem filter_squash {p : Char → Bool} (hp : ∀ c, isWs c = true → p c = false)
    (l : List Char) : (squash l).filter p = l.filter p := by
  unfold squash pyStrip collapseWs
  rw [filter_rstrip hp, filter_dropWhileWs hp, filter_collapseGo hp]

theorem noTagB_cons (c : Char) (rest : List Char) :
    noTagB (c :: rest) =
      if c = '<' then !(rest.any fun d => d == '>') else noTagB rest := rfl

theorem noTagB_eq_filter (l : List Char) : noTagB l = noTagB (l.filter isAngle) := by
  induction l with
  | nil => rfl
  | cons c rest ih =>
    rw [List.filter_cons]
    by_cases hc : c = '<'
    · subst hc
      rw [if_pos (by decide), noTagB_cons, noTagB_cons, if_pos rfl, if_pos rfl,
        any_filter_of_imp]
      intro x hx
      have : x = '>' := by simpa using hx
      subst this; decide
    · by_cases ha : isAngle c = true
      · rw [if_pos ha, noTagB_cons, noTagB_cons, if_neg hc, if_neg hc]
        exact ih
      · rw [if_neg ha, noTagB_cons, if_neg hc]
        exact ih

theorem noTagB_squash (l : List Char) : noTagB (squash l) = noTagB l := by
  rw [noTagB_eq_filter (squash l), filter_squash isWs_angle_false, ← noTagB_eq_filter]

theorem removeTags_squash_removeTags (l : List Char) :
    removeTags (squash (removeTags l)) = squash (removeTags l) :=
  removeTags_eq_self (by rw [noTagB_squash]; exact noTagB_removeTags l)

/-! ### Newline split/join lemmas -/

theorem splitNl_ne_nil (l : List Char) : splitNl l ≠ [] := by
  induction l with
  | nil => simp [splitNl]
  | cons c rest ih =>
    unfold splitNl
    split
    · simp
    · split
      · simp
      · simp

theorem splitNl_no_nl {l : List Char} (h : '\n' ∉ l) : splitNl l = [l] := by
  induction l with
  | nil => rfl
  | cons c rest ih =>
    have hc : ¬ (c = '\n') := fun hc => h (hc ▸ List.mem_cons_self _ _)
    have hr : '\n' ∉ rest := fun hr => h (List.mem_cons_of_mem _ hr)
    unfold splitNl
    rw [if_neg hc, ih hr]

theorem splitNl_cons (c : Char) (rest : List Char) :
    splitNl (c :: rest) =
      if c = '\n' then [] :: splitNl rest
      else
        match splitNl rest with
        | [] => [[c]]
        | w :: ws => (c :: w) :: ws := rfl

theorem splitNl_append_nl {c : List Char} (h : '\n' ∉ c) (t : List Char) :
    splitNl (c ++ '\n' :: t) = c :: splitNl t := by
  induction c with
  | nil =>
    show splitNl ('\n' :: t) = [] :: splitNl t
    rw [splitNl_cons, if_pos rfl]
  | cons a c' ih =>
    have ha : ¬ (a = '\n') := fun hc => h (hc ▸ List.mem_cons_self _ _)
    have hc' : '\n' ∉ c' := fun hr => h (List.mem_cons_of_mem _ hr)
    show splitNl (a :: (c' ++ '\n' :: t)) = (a :: c') :: splitNl t
    rw [splitNl_cons, if_neg ha, ih hc']

theorem splitNl_joinNl : ∀ cs : List (List Char), cs ≠ [] → (∀ c ∈ cs, '\n' ∉ c) →
    splitNl (joinNl cs) = cs := by
  intro cs
  induction cs with
  | nil => intro h _; exact absurd rfl h
  | cons c rest ih =>
    intro _ hnl
    cases rest with
    | nil => exact splitNl_no_nl (hnl c (List.mem_cons_self _ _))
    | cons d ds =>
      rw [show joinNl (c :: d :: ds) = c ++ '\n' :: joinNl (d :: ds) from rfl,
        splitNl_append_nl (hnl c (List.mem_cons_self _ _)),
        ih (by simp) (fun x hx => hnl x (List.mem_cons_of_mem _ hx))]

/-! ### Word split/join lemmas -/

theorem pySplitGo_mem {l : List Char} :
    ∀ cur, (∀ c ∈ cur, isWs c = false) →
    ∀ w ∈ pySplitGo cur l, w ≠ [] ∧ ∀ c ∈ w, isWs c = false := by
  induction l with
  | nil =>
    intro cur hcur w hw
    unfold pySplitGo at hw
    split at hw
    · simp at hw
    · rename_i hne
      rcases List.mem_singleton.mp hw with rfl
      refine ⟨by simpa using hne, ?_⟩
      intro c hc
      exact hcur c (List.mem_reverse.mp hc)
  | cons a rest ih =>
    intro cur hcur w hw
    unfold pySplitGo at hw
    by_cases ha : isWs a = true
    · rw [if_pos ha] at hw
      split at hw
      · exact ih [] (by simp) w hw
      · rename_i hne
        rcases List.mem_cons.mp hw with rfl | hw'
        · refine ⟨by simpa using hne, ?_⟩
          intro c hc
          exact hcur c (List.mem_reverse.mp hc)
        · exact ih [] (by simp) w hw'
    · rw [if_neg ha] at hw
      refine ih (a :: cur) ?_ w hw
      intro c hc
      rcases List.mem_cons.mp hc with rfl | hc'
      · exact Bool.eq_false_iff.mpr ha
      · exact hcur c hc'

theorem pySplit_mem {l w : List Char} (hw : w ∈ pySplit l) :
    w ≠ [] ∧ ∀ c ∈ w, isWs c = false :=
  pySplitGo_mem [] (by simp) w hw

theorem pySplitGo_cons (cur : List Char) (c : Char) (rest : List Char) :
    pySplitGo cur (c :: rest) =
      if isWs c = true then
        (if cur = [] then pySplitGo [] rest else cur.reverse :: pySplitGo [] rest)
      else pySplitGo (c :: cur) rest := rfl

theorem pySplitGo_word {w : List Char} (hw : ∀ c ∈ w, isWs c = false) :
    ∀ (cur l : List Char), pySplitGo cur (w ++ l) = pySplitGo (w.reverse ++ cur) l := by
  induction w with
  | nil => intro cur l; simp
  | cons a w' ih =>
    intro cur l
    have ha : ¬ (isWs a = true) := by
      rw [hw a (List.mem_cons_self _ _)]; simp
    show pySplitGo cur (a :: (w' ++ l)) = pySplitGo ((a :: w').reverse ++ cur) l
    rw [pySplitGo_cons, if_neg ha, ih (fun c hc => hw c (List.mem_cons_of_mem _ hc))]
    congr 1
    simp

theorem joinSp_ne_nil {x : List Char} (hx : x ≠ []) (xs : List (List Char)) :
    joinSp (x :: xs) ≠ [] := by
  cases xs with
  | nil => exact hx
  | cons y ys =>
    show x ++ ' ' :: joinSp (y :: ys) ≠ []
    simp

theorem pySplit_joinSp : ∀ ws : List (List Char),
    (∀ w ∈ ws, w ≠ [] ∧ ∀ c ∈ w, isWs c = false) → pySplit (joinSp ws) = ws := by
  intro ws
  induction ws with
  | nil => intro _; rfl
  | cons w rest ih =>
    intro h
    obtain ⟨hwne, hwf⟩ := h w (List.mem_cons_self _ _)
    cases rest with
    | nil =>
      show pySplitGo [] w = [w]
      have h2 := pySplitGo_word hwf [] []
      rw [List.append_nil, List.append_nil] at h2
      rw [h2]
      show (if w.reverse = [] then [] else [w.reverse.reverse]) = [w]
      rw [if_neg (by simpa using hwne), List.reverse_reverse]
    | cons x xs =>
      show pySplitGo [] (w ++ ' ' :: joinSp (x :: xs)) = w :: x :: xs
      rw [pySplitGo_word hwf, List.append_nil, pySplitGo_cons,
        if_pos (by decide), if_neg (by simpa using hwne), List.reverse_reverse]
      exact congrArg (w :: ·) (ih (fun u hu => h u (List.mem_cons_of_mem _ hu)))

theorem head?_joinSp {w : List Char} (hw : w ≠ []) (ws : List (List Char)) :
    (joinSp (w :: ws)).head? = w.head? := by
  cases ws with
  | nil => rfl
  | cons x xs =>
    show (w ++ ' ' :: joinSp (x :: xs)).head? = w.head?
    exact List.head?_append_of_ne_nil _ hw

theorem getLast?_joinSp : ∀ (xs : List (List Char)) (x : List Char),
    (∀ w ∈ x :: xs, w ≠ []) →
    ∃ w, w ∈ x :: xs ∧ (joinSp (x :: xs)).getLast? = w.getLast? := by
  intro xs
  induction xs with
  | nil => intro x _; exact ⟨x, List.mem_cons_self _ _, rfl⟩
  | cons y ys ih =>
    intro x h
    obtain ⟨w, hw, hlast⟩ := ih y (fun u hu => h u (List.mem_cons_of_mem _ hu))
    refine ⟨w, List.mem_cons_of_mem _ hw, ?_⟩
    show (x ++ ' ' :: joinSp (y :: ys)).getLast? = w.getLast?
    rw [List.getLast?_append_of_ne_nil _ (by simp)]
    have hJ : joinSp (y :: ys) ≠ [] :=
      joinSp_ne_nil (h y (List.mem_cons_of_mem _ (List.mem_cons_self _ _))) ys
    cases hJe : joinSp (y :: ys) with
    | nil => exact absurd hJe hJ
    | cons a as =>
      rw [← hlast, hJe, List.getLast?_cons_cons]

theorem pyStrip_joinSp {ws : List (List Char)}
    (h : ∀ w ∈ ws, w ≠ [] ∧ ∀ c ∈ w, isWs c = false) :
    pyStrip (joinSp ws) = joinSp ws := by
  cases ws with
  | nil => rfl
  | cons x xs =>
    apply pyStrip_eq_self_of_ends
    · intro d hd
      rw [head?_joinSp (h x (List.mem_cons_self _ _)).1] at hd
      exact (h x (List.mem_cons_self _ _)).2 d (List.mem_of_mem_head? hd)
    · intro d hd
      obtain ⟨w, hw, hlast⟩ := getLast?_joinSp xs x (fun u hu => (h u hu).1)
      rw [hlast] at hd
      exact (h w hw).2 d (List.mem_of_mem_getLast? hd)

/-! ### Dedup lemmas -/

theorem dedupWords_cons (S : SetImpl) (seen : S.carrier) (w : List Char)
    (ws : List (List Char)) :
    dedupWords S seen (w :: ws) =
      if !(normKey w).isEmpty && !(S.memS (normKey w) seen) then
        ((w :: (dedupWords S (S.insertS (normKey w) seen) ws).1),
         (dedupWords S (S.insertS (normKey w) seen) ws).2)
      else dedupWords S seen ws := rfl

theorem dedupWords_append (S : SetImpl) (a b : List (List Char)) :
    ∀ seen, dedupWords S seen (a ++ b) =
      ((dedupWords S seen a).1 ++ (dedupWords S (dedupWords S seen a).2 b).1,
       (dedupWords S (dedupWords S seen a).2 b).2) := by
  induction a with
  | nil => intro seen; rfl
  | cons w ws ih =>
    intro seen
    rw [List.cons_append, dedupWords_cons, dedupWords_cons]
    split
    · rw [ih]; rfl
    · rw [ih]

theorem dedupLines_eq_flat (S : SetImpl) :
    ∀ (lines : List (List Char)) (seen : S.carrier),
    dedupLines S seen lines = (dedupWords S seen ((lines.map pySplit).flatten)).1 := by
  intro lines
  induction lines with
  | nil => intro seen; rfl
  | cons line rest ih =>
    intro seen
    show (dedupWords S seen (pySplit line)).1 ++
        dedupLines S (dedupWords S seen (pySplit line)).2 rest = _
    rw [List.map_cons, List.flatten_cons, dedupWords_append, ih]

theorem dedupWords_congr (S₁ S₂ : SetImpl) :
    ∀ (ws : List (List Char)) (s₁ : S₁.carrier) (s₂ : S₂.carrier),
    (∀ k, S₁.memS k s₁ = S₂.memS k s₂) →
    (dedupWords S₁ s₁ ws).1 = (dedupWords S₂ s₂ ws).1 ∧
    (∀ k, S₁.memS k (dedupWords S₁ s₁ ws).2 = S₂.memS k (dedupWords S₂ s₂ ws).2) := by
  intro ws
  induction ws with
  | nil => intro s₁ s₂ h; exact ⟨rfl, h⟩
  | cons w rest ih =>
    intro s₁ s₂ h
    rw [dedupWords_cons, dedupWords_cons, h (normKey w)]
    split
    · have hinv : ∀ k, S₁.memS k (S₁.insertS (normKey w) s₁) =
          S₂.memS k (S₂.insertS (normKey w) s₂) := by
        intro k
        rw [S₁.mem_insert, S₂.mem_insert, h k]
      obtain ⟨h1, h2⟩ := ih _ _ hinv
      exact ⟨by rw [h1], h2⟩
    · exact ih _ _ h

theorem dedupLines_congr (S₁ S₂ : SetImpl) :
    ∀ (lines : List (List Char)) (s₁ : S₁.carrier) (s₂ : S₂.carrier),
    (∀ k, S₁.memS k s₁ = S₂.memS k s₂) →
    dedupLines S₁ s₁ lines = dedupLines S₂ s₂ lines := by
  intro lines
  induction lines with
  | nil => intro _ _ _; rfl
  | cons line rest ih =>
    intro s₁ s₂ h
    obtain ⟨h1, h2⟩ := dedupWords_congr S₁ S₂ (pySplit line) s₁ s₂ h
    show (dedupWords S₁ s₁ (pySplit line)).1 ++
        dedupLines S₁ (dedupWords S₁ s₁ (pySplit line)).2 rest = _
    rw [h1, ih _ _ h2]
    rfl

theorem uniqueWordsWith_eq (S : SetImpl) (text_lines : List (List Char)) :
    uniqueWordsWith S text_lines = uniqueWordsL text_lines := by
  unfold uniqueWordsWith uniqueWordsL
  apply dedupLines_congr
  intro k
  rw [S.mem_empty, listSet.mem_empty]

theorem all_not_eq_not_any (q : List Char → Bool) (l : List (List Char)) :
    l.all (fun p => !(q p)) = !(l.any q) := by
  induction l with
  | nil => rfl
  | cons x xs ih => simp [List.all_cons, List.any_cons, ih]

theorem dedupSpecGo_cons_eq (prev : List (List Char)) (w : List Char)
    (rest : List (List Char)) :
    dedupSpecGo prev (w :: rest) =
      if !(normKey w).isEmpty && !(prev.any (fun p => normKey p == normKey w)) then
        w :: dedupSpecGo (prev ++ [w]) rest
      else dedupSpecGo (prev ++ [w]) rest := rfl

theorem dedupWords_eq_specGo (S : SetImpl) :
    ∀ (ws : List (List Char)) (s : S.carrier) (prev : List (List Char)),
    (∀ k : List Char, k ≠ [] → S.memS k s = prev.any (fun p => normKey p == k)) →
    (dedupWords S s ws).1 = dedupSpecGo prev ws := by
  intro ws
  induction ws with
  | nil => intro s prev _; rfl
  | cons w rest ih =>
    intro s prev h
    rw [dedupWords_cons, dedupSpecGo_cons_eq]
    by_cases hk : normKey w = []
    · have hE : (!(normKey w).isEmpty) = false := by rw [hk]; rfl
      rw [if_neg (by rw [hE]; simp), if_neg (by rw [hE]; simp)]
      apply ih
      intro k hkne
      rw [h k hkne, List.any_append]
      have hwk : (normKey w == k) = false := by
        rw [hk]
        exact beq_eq_false_iff_ne.mpr (Ne.symm hkne)
      simp [hwk]
    · have hE : (!(normKey w).isEmpty) = true := by
        simp [List.isEmpty_iff, hk]
      have hmem : S.memS (normKey w) s = prev.any (fun p => normKey p == normKey w) :=
        h (normKey w) hk
      by_cases hm : prev.any (fun p => normKey p == normKey w) = true
      · have hS : S.memS (normKey w) s = true := by rw [hmem, hm]
        rw [if_neg (by rw [hS]; simp), if_neg (by rw [hm]; simp)]
        apply ih
        intro k hkne
        rw [h k hkne, List.any_append]
        by_cases hkk : normKey w = k
        · subst hkk
          simp [hm]
        · have hwk : (normKey w == k) = false := beq_eq_false_iff_ne.mpr hkk
          simp [hwk]
      · have hm' : (prev.any fun p => normKey p == normKey w) = false :=
          Bool.eq_false_iff.mpr hm
        have hS : S.memS (normKey w) s = false := by rw [hmem, hm']
        rw [if_pos (by rw [hE, hS]; rfl), if_pos (by rw [hE, hm']; rfl)]
        show w :: (dedupWords S (S.insertS (normKey w) s) rest).1 = _
        congr 1
        apply ih
        intro k hkne
        rw [S.mem_insert, h k hkne, List.any_append]
        have hsym : (k == normKey w) = (normKey w == k) := by
          rw [Bool.eq_iff_iff]
          constructor
          · intro hx; exact beq_iff_eq.mpr (beq_iff_eq.mp hx).symm
          · intro hx; exact beq_iff_eq.mpr (beq_iff_eq.mp hx).symm
        rw [hsym]
        simp [Bool.or_comm]

theorem uniqueWordsL_eq_spec (text_lines : List (List Char)) :
    uniqueWordsL text_lines = dedupSpec ((text_lines.map pySplit).flatten) := by
  unfold uniqueWordsL uniqueWordsWith dedupSpec
  rw [dedupLines_eq_flat]
  apply dedupWords_eq_specGo
  intro k _
  rw [listSet.mem_empty]
  rfl

theorem dedupSpecGo_sublist : ∀ (ws prev : List (List Char)),
    List.Sublist (dedupSpecGo prev ws) ws := by
  intro ws
  induction ws with
  | nil => intro prev; exact List.Sublist.refl _
  | cons w rest ih =>
    intro prev
    show (if _ then w :: dedupSpecGo (prev ++ [w]) rest
          else dedupSpecGo (prev ++ [w]) rest).Sublist (w :: rest)
    split
    · exact List.Sublist.cons₂ w (ih (prev ++ [w]))
    · exact List.Sublist.cons w (ih (prev ++ [w]))

theorem dedupSpecGo_mem : ∀ (ws prev : List (List Char)) (w : List Char),
    w ∈ dedupSpecGo prev ws →
    normKey w ≠ [] ∧ prev.any (fun p => normKey p == normKey w) = false := by
  intro ws
  induction ws with
  | nil => intro prev w hw; simp [dedupSpecGo] at hw
  | cons v rest ih =>
    intro prev w hw
    rw [dedupSpecGo_cons_eq] at hw
    by_cases hcond :
        (!(normKey v).isEmpty && !(prev.any (fun p => normKey p == normKey v))) = true
    · rw [if_pos hcond] at hw
      rcases List.mem_cons.mp hw with rfl | hw'
      · simp only [Bool.and_eq_true, Bool.not_eq_true', List.isEmpty_iff] at hcond
        have h1 : normKey w ≠ [] := by
          intro hx
          rw [List.isEmpty_iff.mpr hx] at hcond
          exact absurd hcond.1 (by simp)
        exact ⟨h1, hcond.2⟩
      · obtain ⟨h1, h2⟩ := ih (prev ++ [v]) w hw'
        rw [List.any_append] at h2
        refine ⟨h1, ?_⟩
        rcases Bool.or_eq_false_iff.mp h2 with ⟨ha, _⟩
        exact ha
    · rw [if_neg hcond] at hw
      obtain ⟨h1, h2⟩ := ih (prev ++ [v]) w hw
      rw [List.any_append] at h2
      refine ⟨h1, ?_⟩
      rcases Bool.or_eq_false_iff.mp h2 with ⟨ha, _⟩
      exact ha

theorem dedupSpecGo_pairwise : ∀ (ws prev : List (List Char)),
    List.Pairwise (fun a b => normKey a ≠ normKey b) (dedupSpecGo prev ws) := by
  intro ws
  induction ws with
  | nil => intro prev; exact List.Pairwise.nil
  | cons v rest ih =>
    intro prev
    show List.Pairwise _ (if _ then v :: dedupSpecGo (prev ++ [v]) rest
          else dedupSpecGo (prev ++ [v]) rest)
    split
    · refine List.Pairwise.cons ?_ (ih (prev ++ [v]))
      intro b hb
      obtain ⟨_, h2⟩ := dedupSpecGo_mem rest (prev ++ [v]) b hb
      rw [List.any_append] at h2
      rcases Bool.or_eq_false_iff.mp h2 with ⟨_, hb2⟩
      intro hEq
      have : (normKey v == normKey b) = true := beq_iff_eq.mpr hEq
      simp [List.any_cons, this] at hb2
    · exact ih (prev ++ [v])

/-! ### Segmenter lemmas -/

/-- The property every word entering the segmenter has (being an output of
`pySplit`): non-empty and whitespace-free. -/
def goodWord (w : List Char) : Prop := w ≠ [] ∧ ∀ c ∈ w, isWs c = false

theorem joinSp_ne_nil' {ws : List (List Char)} (hne : ws ≠ [])
    (h : ∀ w ∈ ws, w ≠ []) : joinSp ws ≠ [] := by
  cases ws with
  | nil => exact absurd rfl hne
  | cons x xs => exact joinSp_ne_nil (h x (List.mem_cons_self _ _)) xs

theorem closeTrig_concat (buf : List (List Char)) (w : List Char) :
    closeTrig (buf ++ [w]) = (endsPunctW w || decide ((joinSp (buf ++ [w])).length > 50)) := by
  unfold closeTrig
  rw [List.getLast?_concat]

theorem splitSentencesGo_cons_eq (cur : List (List Char)) (w : List Char)
    (rest : List (List Char)) :
    splitSentencesGo cur (w :: rest) =
      if endsPunctW w || decide ((joinSp (cur ++ [w])).length > 50) then
        (if pyStrip (joinSp (cur ++ [w])) ≠ [] then
          String.mk (pyStrip (joinSp (cur ++ [w]))) :: splitSentencesGo [] rest
         else splitSentencesGo [] rest)
      else splitSentencesGo (cur ++ [w]) rest := rfl

theorem chunkGo_cons_eq (buf : List (List Char)) (w : List Char)
    (rest : List (List Char)) :
    chunkGo buf (w :: rest) =
      if closeTrig (buf ++ [w]) then (buf ++ [w]) :: chunkGo [] rest
      else chunkGo (buf ++ [w]) rest := rfl

theorem splitSentencesGo_eq_chunks :
    ∀ (ws buf : List (List Char)), (∀ w ∈ buf ++ ws, goodWord w) →
    splitSentencesGo buf ws = (chunkGo buf ws).map (fun c => String.mk (joinSp c)) := by
  intro ws
  induction ws with
  | nil =>
    intro buf h
    cases buf with
    | nil => rfl
    | cons b bs =>
      have hgood : ∀ w ∈ b :: bs, goodWord w := by
        intro w hw; exact h w (by simpa using hw)
      have hjne : joinSp (b :: bs) ≠ [] :=
        joinSp_ne_nil' (by simp) (fun w hw => (hgood w hw).1)
      have hstrip : pyStrip (joinSp (b :: bs)) = joinSp (b :: bs) :=
        pyStrip_joinSp (fun w hw => ⟨(hgood w hw).1, (hgood w hw).2⟩)
      show (let st := pyStrip (joinSp (b :: bs));
            if st ≠ [] then [String.mk st] else []) = [String.mk (joinSp (b :: bs))]
      rw [show (let st := pyStrip (joinSp (b :: bs));
            if st ≠ [] then [String.mk st] else []) =
          if pyStrip (joinSp (b :: bs)) ≠ [] then [String.mk (pyStrip (joinSp (b :: bs)))]
          else [] from rfl]
      rw [hstrip, if_pos hjne]
  | cons w rest ih =>
    intro buf h
    have hw : goodWord w := h w (by simp)
    have hbuf : ∀ u ∈ buf, goodWord u := fun u hu => h u (by simp [hu])
    have hrest : ∀ u ∈ rest, goodWord u := fun u hu => h u (by simp [hu])
    have hbw : ∀ u ∈ buf ++ [w], goodWord u := by
      intro u hu
      rcases List.mem_append.mp hu with hu' | hu'
      · exact hbuf u hu'
      · rcases List.mem_singleton.mp hu' with rfl
        exact hw
    rw [splitSentencesGo_cons_eq, chunkGo_cons_eq, closeTrig_concat]
    by_cases htr : (endsPunctW w || decide ((joinSp (buf ++ [w])).length > 50)) = true
    · rw [if_pos htr, if_pos htr]
      have hjne : joinSp (buf ++ [w]) ≠ [] :=
        joinSp_ne_nil' (by simp) (fun u hu => (hbw u hu).1)
      have hstrip : pyStrip (joinSp (buf ++ [w])) = joinSp (buf ++ [w]) :=
        pyStrip_joinSp (fun u hu => ⟨(hbw u hu).1, (hbw u hu).2⟩)
      rw [hstrip, if_pos hjne, List.map_cons,
        ih [] (by intro u hu; exact hrest u (by simpa using hu))]
    · rw [if_neg htr, if_neg htr]
      apply ih
      intro u hu
      rcases List.mem_append.mp hu with hu' | hu'
      · exact hbw u hu'
      · exact hrest u hu'

theorem chunkGo_flatten : ∀ (ws buf : List (List Char)),
    (chunkGo buf ws).flatten = buf ++ ws := by
  intro ws
  induction ws with
  | nil =>
    intro buf
    unfold chunkGo
    split
    · simp [*]
    · simp
  | cons w rest ih =>
    intro buf
    rw [chunkGo_cons_eq]
    split
    · rw [List.flatten_cons, ih []]
      simp
    · rw [ih (buf ++ [w])]
      simp

theorem chunkGo_chunks_ne_nil : ∀ (ws buf : List (List Char)),
    ∀ c ∈ chunkGo buf ws, c ≠ [] := by
  intro ws
  induction ws with
  | nil =>
    intro buf c hc
    unfold chunkGo at hc
    split at hc
    · simp at hc
    · rename_i hbne
      rcases List.mem_singleton.mp hc with rfl
      exact hbne
  | cons w rest ih =>
    intro buf c hc
    rw [chunkGo_cons_eq] at hc
    split at hc
    · rcases List.mem_cons.mp hc with rfl | hc'
      · simp
      · exact ih [] c hc'
    · exact ih (buf ++ [w]) c hc

theorem chunkGo_dropLast_trig : ∀ (ws buf : List (List Char)),
    ∀ c ∈ (chunkGo buf ws).dropLast, closeTrig c = true := by
  intro ws
  induction ws with
  | nil =>
    intro buf c hc
    unfold chunkGo at hc
    split at hc
    · simp at hc
    · simp at hc
  | cons w rest ih =>
    intro buf c hc
    rw [chunkGo_cons_eq] at hc
    split at hc
    · rename_i htr
      cases hrec : chunkGo [] rest with
      | nil => rw [hrec] at hc; simp at hc
      | cons d ds =>
        rw [hrec, List.dropLast_cons₂] at hc
        rcases List.mem_cons.mp hc with rfl | hc'
        · exact htr
        · have hmem : c ∈ (chunkGo [] rest).dropLast := by rw [hrec]; exact hc'
          exact ih [] c hmem
    · exact ih (buf ++ [w]) c hc

theorem chunkGo_take_no_trig : ∀ (ws buf : List (List Char)),
    (∀ k, 0 < k → k ≤ buf.length → closeTrig (buf.take k) = false) →
    ∀ c ∈ chunkGo buf ws, ∀ k, 0 < k → k < c.length → closeTrig (c.take k) = false := by
  intro ws
  induction ws with
  | nil =>
    intro buf hbuf c hc k hk0 hkc
    unfold chunkGo at hc
    split at hc
    · simp at hc
    · rcases List.mem_singleton.mp hc with rfl
      exact hbuf k hk0 (Nat.le_of_lt hkc)
  | cons w rest ih =>
    intro buf hbuf c hc k hk0 hkc
    rw [chunkGo_cons_eq] at hc
    split at hc
    · rcases List.mem_cons.mp hc with rfl | hc'
      · have hkb : k ≤ buf.length := by
          simp only [List.length_append, List.length_singleton] at hkc
          omega
        rw [List.take_append_of_le_length hkb]
        exact hbuf k hk0 hkb
      · exact ih [] (by intro k hk0 hk1; simp at hk1; omega) c hc' k hk0 hkc
    · rename_i htr
      refine ih (buf ++ [w]) ?_ c hc k hk0 hkc
      intro j hj0 hj
      rcases Nat.lt_or_ge j (buf.length + 1) with hjb | hjb
      · rcases Nat.lt_or_ge j buf.length with hjb' | hjb'
        · rw [List.take_append_of_le_length (Nat.le_of_lt hjb')]
          exact hbuf j hj0 (Nat.le_of_lt hjb')
        · have : j = buf.length ∨ j = buf.length + 1 := by omega
          rcases this with rfl | rfl
          · rw [List.take_append_of_le_length (Nat.le_refl _)]
            exact hbuf _ hj0 (Nat.le_refl _)
          · rw [List.take_of_length_le (by simp)]
            exact Bool.eq_false_iff.mpr htr
      · have hlen : (buf ++ [w]).length = buf.length + 1 := by simp
        have : j = buf.length + 1 := by omega
        subst this
        rw [List.take_of_length_le (by simp)]
        exact Bool.eq_false_iff.mpr htr

theorem splitSentencesGo_strip_ne : ∀ (ws cur : List (List Char)),
    ∀ s ∈ splitSentencesGo cur ws, pyStripS s ≠ "" ∧ s ≠ "" := by
  intro ws
  induction ws with
  | nil =>
    intro cur s hs
    have hs' : s ∈ (if pyStrip (joinSp cur) ≠ [] then
        [String.mk (pyStrip (joinSp cur))] else []) := hs
    by_cases hst : pyStrip (joinSp cur) ≠ []
    · rw [if_pos hst] at hs'
      rcases List.mem_singleton.mp hs' with rfl
      constructor
      · show String.mk (pyStrip (pyStrip (joinSp cur))) ≠ ""
        rw [pyStrip_idem]
        intro hx
        exact hst (congrArg String.data hx)
      · intro hx
        exact hst (congrArg String.data hx)
    · rw [if_neg hst] at hs'
      simp at hs'
  | cons w rest ih =>
    intro cur s hs
    rw [splitSentencesGo_cons_eq] at hs
    split at hs
    · split at hs
      · rename_i hst
        rcases List.mem_cons.mp hs with rfl | hs'
        · constructor
          · show String.mk (pyStrip (pyStrip (joinSp (cur ++ [w])))) ≠ ""
            rw [pyStrip_idem]
            intro hx
            exact hst (congrArg String.data hx)
          · intro hx
            exact hst (congrArg String.data hx)
        · exact ih [] s hs'
      · exact ih [] s hs
    · exact ih (cur ++ [w]) s hs

theorem splitSentences_strip_ne {t : String} :
    ∀ s ∈ splitSentences t, pyStripS s ≠ "" ∧ s ≠ "" :=
  fun s hs => splitSentencesGo_strip_ne (pySplit t.data) [] s hs

/-! ### Timestamp synthesizer lemmas -/

/-- The segments `synthesizeGo n` produces when every sentence survives the
strip guard. -/
def idealSegs (n : Nat) : Nat → List String → List Segment
  | _, [] => []
  | i, s :: rest =>
    { text := pyStripS s,
      start := (i * total_duration) / n,
      endT := ((i + 1) * total_duration) / n,
      duration := ((i + 1) * total_duration) / n - (i * total_duration) / n } ::
      idealSegs n (i + 1) rest

theorem synthesizeGo_eq_ideal {n : Nat} (hn : n ≠ 0) :
    ∀ (sents : List String) (i : Nat), (∀ s ∈ sents, pyStripS s ≠ "") →
    synthesizeGo n i sents = some (idealSegs n i sents) := by
  intro sents
  induction sents with
  | nil => intro i _; rfl
  | cons s rest ih =>
    intro i h
    show (if pyStripS s ≠ "" then _ else _) = _
    rw [if_pos (h s (List.mem_cons_self _ _)), if_neg hn,
      ih (i + 1) (fun u hu => h u (List.mem_cons_of_mem _ hu))]
    rfl

theorem idealSegs_length (n : Nat) :
    ∀ (sents : List String) (i : Nat), (idealSegs n i sents).length = sents.length := by
  intro sents
  induction sents with
  | nil => intro i; rfl
  | cons s rest ih => intro i; simp [idealSegs, ih]

theorem idealSegs_get (n : Nat) :
    ∀ (sents : List String) (i k : Nat) (h : k < (idealSegs n i sents).length),
    ((idealSegs n i sents).get ⟨k, h⟩).start = (((i + k : Nat) : ℚ) * total_duration) / n ∧
    ((idealSegs n i sents).get ⟨k, h⟩).endT = (((i + k + 1 : Nat) : ℚ) * total_duration) / n ∧
    ((idealSegs n i sents).get ⟨k, h⟩).duration =
      ((idealSegs n i sents).get ⟨k, h⟩).endT - ((idealSegs n i sents).get ⟨k, h⟩).start := by
  intro sents
  induction sents with
  | nil => intro i k h; simp [idealSegs] at h
  | cons s rest ih =>
    intro i k h
    cases k with
    | zero =>
      refine ⟨?_, ?_, rfl⟩
      · show ((i : ℚ) * total_duration) / n = (((i + 0 : Nat) : ℚ) * total_duration) / n
        norm_num
      · show (((i : ℚ) + 1) * total_duration) / n = (((i + 0 + 1 : Nat) : ℚ) * total_duration) / n
        push_cast
        norm_num
    | succ k' =>
      have h' : k' < (idealSegs n (i + 1) rest).length := by
        simpa [idealSegs] using h
      obtain ⟨h1, h2, h3⟩ := ih (i + 1) k' h'
      have hget : (idealSegs n i (s :: rest)).get ⟨k' + 1, h⟩ =
          (idealSegs n (i + 1) rest).get ⟨k', h'⟩ := rfl
      rw [hget]
      refine ⟨?_, ?_, h3⟩
      · rw [h1]
        congr 2
        push_cast
        ring
      · rw [h2]
        congr 2
        push_cast
        ring

/-! ### Normalizer lemmas -/

theorem keepLineL_eq_specThree (raw : List Char) : keepLineL raw = keepLineSpecThree raw := by
  unfold keepLineL keepLineSpecThree
  by_cases h0 : pyStrip raw = []
  · rw [if_pos (by simp [h0]), if_neg (by simp [h0])]
  · by_cases hh : headerish (pyStrip raw) = true
    · rw [if_pos (by simp [hh]), if_neg ?hc]
      case hc =>
        intro hcond
        simp only [Bool.and_eq_true, Bool.not_eq_true'] at hcond
        obtain ⟨⟨⟨⟨⟨⟨_, hw⟩, hk⟩, hg⟩, hd⟩, ha⟩, _⟩ := hcond
        unfold headerish at hh
        rw [hw, hk, hg, hd, ha] at hh
        simp at hh
    · have hh' : headerish (pyStrip raw) = false := Bool.eq_false_iff.mpr hh
      rw [if_neg (by simp [h0, hh'])]
      unfold headerish at hh'
      simp only [Bool.or_eq_false_iff] at hh'
      obtain ⟨⟨⟨⟨hw, hk⟩, hg⟩, ha⟩, hd⟩ := hh'
      have hE : (pyStrip raw).isEmpty = false := by simp [List.isEmpty_iff, h0]
      by_cases hlen : 2 < (squash (removeTags (pyStrip raw))).length
      · have hcne : squash (removeTags (pyStrip raw)) ≠ [] := by
          intro hx
          rw [hx] at hlen
          simp at hlen
        rw [if_pos (by simp [List.isEmpty_iff, hcne, hlen]),
          if_pos (by simp [hE, hw, hk, hg, ha, hd, hlen])]
      · rw [if_neg (by simp [hlen]), if_neg (by simp [hlen])]

theorem cleanLinesL_eq_specThree (payload : List Char) :
    cleanLinesL payload = (splitNl payload).filterMap keepLineSpecThree := by
  unfold cleanLinesL
  rw [show keepLineL = keepLineSpecThree from funext keepLineL_eq_specThree]

theorem keepLineL_def (raw : List Char) :
    keepLineL raw =
      (if (decide (pyStrip raw = []) || headerish (pyStrip raw)) = true then none
       else if (!(squash (removeTags (pyStrip raw))).isEmpty &&
             decide ((squash (removeTags (pyStrip raw))).length > 2)) = true then
           some (squash (removeTags (pyStrip raw)))
         else none) := rfl

theorem keepLineL_some_props {raw c : List Char} (h : keepLineL raw = some c) :
    spaced c = true ∧ noTagB c = true ∧ 2 < c.length ∧ pyStrip c = c := by
  rw [keepLineL_def] at h
  split at h
  · exact absurd h (by simp)
  · split at h
    · rename_i hcond
      have hc : squash (removeTags (pyStrip raw)) = c := Option.some.inj h
      subst hc
      refine ⟨spaced_squash _, ?_, ?_, pyStrip_squash _⟩
      · rw [noTagB_squash]
        exact noTagB_removeTags _
      · simp only [Bool.and_eq_true, decide_eq_true_eq] at hcond
        exact hcond.2
    · exact absurd h (by simp)

theorem spaced_no_nl {c : List Char} (h : spaced c = true) : '\n' ∉ c := by
  intro hmem
  have := spaced_ws_space h '\n' hmem (by decide)
  exact absurd this (by decide)

theorem keepLineL_roundtrip {c : List Char} (hsp : spaced c = true) (hnt : noTagB c = true)
    (hlen : 2 < c.length) (hstr : pyStrip c = c) (hhead : headerish c = false) :
    keepLineL c = some c := by
  have hne : c ≠ [] := by
    intro hx
    rw [hx] at hlen
    simp at hlen
  rw [keepLineL_def, hstr, if_neg (by simp [hne, hhead]), removeTags_eq_self hnt,
    squash_eq_self hsp hstr, if_pos (by simp [List.isEmpty_iff, hne, hlen])]

theorem cleanLinesL_mem_props {x l : List Char} (h : l ∈ cleanLinesL x) :
    spaced l = true ∧ noTagB l = true ∧ 2 < l.length ∧ pyStrip l = l := by
  rcases List.mem_filterMap.mp h with ⟨raw, _, hraw⟩
  exact keepLineL_some_props hraw

theorem filterMap_keepLineL_self {ls : List (List Char)}
    (h : ∀ l ∈ ls, keepLineL l = some l) : ls.filterMap keepLineL = ls := by
  induction ls with
  | nil => rfl
  | cons a rest ih =>
    rw [List.filterMap_cons, h a (List.mem_cons_self _ _),
      ih (fun l hl => h l (List.mem_cons_of_mem _ hl))]

/-! ### Pipeline-level helper lemmas -/

theorem aggressiveCleanVttWith_def (S : SetImpl) (v : String) :
    aggressiveCleanVttWith S v =
      if cleanLinesL v.data = [] then some []
      else synthesize (splitSentences (String.mk (resultTextWith S (cleanLinesL v.data)))) := rfl

/-! ## Claim theorems -/

/-- C1: for every non-empty sentence list produced by the segmenter, the
timestamp synthesizer yields exactly one segment per sentence, with
`start = i*144/N`, `end = (i+1)*144/N`, first start `0`, last end `144`,
adjacent segments sharing a boundary, and `duration = end - start`. -/
theorem timestamp_segment_coverage (t : String) (h : splitSentences t ≠ []) :
    ∃ segs : List Segment,
      synthesize (splitSentences t) = some segs ∧
      segs.length = (splitSentences t).length ∧
      (∀ (i : Nat) (hi : i < segs.length),
        (segs.get ⟨i, hi⟩).start = ((i : ℚ) * 144) / (splitSentences t).length ∧
        (segs.get ⟨i, hi⟩).endT = (((i : ℚ) + 1) * 144) / (splitSentences t).length ∧
        (segs.get ⟨i, hi⟩).duration = (segs.get ⟨i, hi⟩).endT - (segs.get ⟨i, hi⟩).start) ∧
      (∀ h0 : 0 < segs.length, (segs.get ⟨0, h0⟩).start = 0) ∧
      (∀ hl : segs.length - 1 < segs.length,
        (segs.get ⟨segs.length - 1, hl⟩).endT = 144) ∧
      (∀ (i : Nat) (hi : i + 1 < segs.length),
        (segs.get ⟨i, Nat.lt_of_succ_lt hi⟩).endT = (segs.get ⟨i + 1, hi⟩).start) := by
  have hn : (splitSentences t).length ≠ 0 := fun hx => h (List.length_eq_zero.mp hx)
  have hnq : ((splitSentences t).length : ℚ) ≠ 0 := Nat.cast_ne_zero.mpr hn
  have hstrip : ∀ s ∈ splitSentences t, pyStripS s ≠ "" :=
    fun s hs => (splitSentences_strip_ne s hs).1
  have hsynth : synthesize (splitSentences t) =
      some (idealSegs (splitSentences t).length 0 (splitSentences t)) :=
    synthesizeGo_eq_ideal hn (splitSentences t) 0 hstrip
  have hD : total_duration = (144 : ℚ) := rfl
  refine ⟨idealSegs (splitSentences t).length 0 (splitSentences t), hsynth,
    idealSegs_length _ _ 0, ?_, ?_, ?_, ?_⟩
  · intro i hi
    obtain ⟨h1, h2, h3⟩ := idealSegs_get (splitSentences t).length (splitSentences t) 0 i hi
    refine ⟨?_, ?_, h3⟩
    · rw [h1, hD]
      norm_num
    · rw [h2, hD]
      push_cast
      ring_nf
  · intro h0
    obtain ⟨h1, _, _⟩ := idealSegs_get (splitSentences t).length (splitSentences t) 0 0 h0
    rw [h1]
    norm_num
  · intro hl
    obtain ⟨_, h2, _⟩ := idealSegs_get (splitSentences t).length (splitSentences t) 0
      ((idealSegs (splitSentences t).length 0 (splitSentences t)).length - 1) hl
    rw [h2, hD]
    have hlen : (idealSegs (splitSentences t).length 0 (splitSentences t)).length =
        (splitSentences t).length := idealSegs_length _ _ 0
    rw [hlen]
    have hN : 0 + ((splitSentences t).length - 1) + 1 = (splitSentences t).length := by
      omega
    rw [hN, mul_comm, mul_div_assoc, div_self hnq, mul_one]
  · intro i hi
    obtain ⟨_, h2, _⟩ := idealSegs_get (splitSentences t).length (splitSentences t) 0 i
      (Nat.lt_of_succ_lt hi)
    obtain ⟨h1', _, _⟩ := idealSegs_get (splitSentences t).length (splitSentences t) 0 (i + 1) hi
    rw [h2, h1', Nat.zero_add, Nat.zero_add]

/-- C1 witness: a concrete sentence list satisfying the hypothesis. -/
theorem timestamp_segment_coverage_witness :
    splitSentences "Hi there" ≠ [] ∧
    (∃ segs : List Segment, synthesize (splitSentences "Hi there") = some segs ∧
      segs.length = (splitSentences "Hi there").length) := by
  refine ⟨by decide, ?_⟩
  obtain ⟨segs, h1, h2, _⟩ := timestamp_segment_coverage "Hi there" (by decide)
  exact ⟨segs, h1, h2⟩

/-- C2: the dedup stage equals the declarative rule "keep a word iff its
normalized key is non-empty and no earlier word of the line-ordered stream
has the same key"; its output has pairwise-distinct non-empty keys and is a
subsequence (hence first-occurrence order) of the word stream. -/
theorem dedup_correctness (text_lines : List (List Char)) :
    uniqueWordsL text_lines = dedupSpec ((text_lines.map pySplit).flatten) ∧
    List.Pairwise (fun a b => normKey a ≠ normKey b) (uniqueWordsL text_lines) ∧
    (∀ w ∈ uniqueWordsL text_lines, normKey w ≠ []) ∧
    (uniqueWordsL text_lines).Sublist ((text_lines.map pySplit).flatten) := by
  have he := uniqueWordsL_eq_spec text_lines
  refine ⟨he, ?_, ?_, ?_⟩
  · rw [he]
    exact dedupSpecGo_pairwise _ []
  · rw [he]
    intro w hw
    exact (dedupSpecGo_mem _ [] w hw).1
  · rw [he]
    exact dedupSpecGo_sublist _ []

/-- C2 witness: the dedup properties at a concrete input. -/
theorem dedup_correctness_witness :
    uniqueWordsL ["Hello hello world".data, "world again".data] =
      dedupSpec (([ "Hello hello world".data, "world again".data].map pySplit).flatten) ∧
    List.Pairwise (fun a b => normKey a ≠ normKey b)
      (uniqueWordsL ["Hello hello world".data, "world again".data]) :=
  ⟨(dedup_correctness ["Hello hello world".data, "world again".data]).1,
   (dedup_correctness ["Hello hello world".data, "world again".data]).2.1⟩

/-- C3: when nothing survives normalization and dedup, the pipeline returns
an empty segment list (`some []`, and in particular not the `none` that
models a `ZeroDivisionError`: the synthesizer's division is never executed
with a zero divisor). -/
theorem empty_input_safety (p : String)
    (h : uniqueWordsL (cleanLinesL p.data) = []) :
    aggressive_clean_vtt p = some [] := by
  unfold aggressive_clean_vtt
  rw [aggressiveCleanVttWith_def]
  by_cases htl : cleanLinesL p.data = []
  · rw [if_pos htl]
  · rw [if_neg htl]
    unfold resultTextWith
    rw [show uniqueWordsWith listSet (cleanLinesL p.data) =
        uniqueWordsL (cleanLinesL p.data) from rfl, h]
    rfl

/-- C3 witness: an all-noise payload. -/
theorem empty_input_safety_witness :
    uniqueWordsL (cleanLinesL ("WEBVTT\nKind: captions\n\n1\n00:00:00.000 --> 00:00:02.000").data) = [] ∧
    aggressive_clean_vtt "WEBVTT\nKind: captions\n\n1\n00:00:00.000 --> 00:00:02.000" = some [] :=
  ⟨by decide, empty_input_safety _ (by decide)⟩

/-- C4: the segmenter renders exactly the greedy word chunks: chunks
partition the word stream in order, every chunk is non-empty, no proper
non-empty prefix of a chunk satisfies the closing condition (punctuation on
the just-appended word, or joined length > 50), every non-final chunk
satisfies it at its full extent, and no empty sentence is emitted. -/
theorem segmenter_closing_rule (t : String) :
    splitSentences t = (chunkWords (pySplit t.data)).map (fun c => String.mk (joinSp c)) ∧
    (chunkWords (pySplit t.data)).flatten = pySplit t.data ∧
    (∀ c ∈ chunkWords (pySplit t.data), c ≠ []) ∧
    (∀ c ∈ chunkWords (pySplit t.data), ∀ k, 0 < k → k < c.length →
      closeTrig (c.take k) = false) ∧
    (∀ c ∈ (chunkWords (pySplit t.data)).dropLast, closeTrig c = true) ∧
    (∀ s ∈ splitSentences t, s ≠ "") := by
  refine ⟨?_, ?_, ?_, ?_, ?_, ?_⟩
  · unfold splitSentences chunkWords
    apply splitSentencesGo_eq_chunks
    intro w hw
    exact pySplit_mem (by simpa using hw)
  · rw [show chunkWords (pySplit t.data) = chunkGo [] (pySplit t.data) from rfl,
      chunkGo_flatten]
    rfl
  · exact chunkGo_chunks_ne_nil _ []
  · exact chunkGo_take_no_trig _ [] (by intro k hk0 hk1; simp at hk1; omega)
  · exact chunkGo_dropLast_trig _ []
  · intro s hs
    exact (splitSentences_strip_ne s hs).2

/-- C4 witness: chunk conservation at a concrete input. -/
theorem segmenter_closing_rule_witness :
    (chunkWords (pySplit ("Hi there. Bye").data)).flatten = pySplit ("Hi there. Bye").data :=
  (segmenter_closing_rule "Hi there. Bye").2.1

/-- C5 counterexample: the spec's two-prefix normalizer rule keeps the line
`WEBVTT extra`, but the code discards it (it also tests the `WEBVTT` prefix). -/
theorem normalizer_two_prefixes_cex :
    keepLineSpecTwo ("WEBVTT extra").data = some ("WEBVTT extra").data ∧
    keepLineL ("WEBVTT extra").data = none ∧
    cleanLinesL ("WEBVTT extra").data = [] := by decide

/-- C5 amended: the normalizer keeps a line iff its stripped form is
non-empty, starts with none of the THREE header prefixes `WEBVTT`, `Kind:`,
`Language:`, is not purely numeric, lacks the `-->` arrow, and cleans (tag
removal, whitespace collapse, trim) to length > 2; kept lines appear in
input order in cleaned form. -/
theorem normalizer_keep_rule (payload : String) :
    cleanLines payload = ((splitNl payload.data).filterMap keepLineSpecThree).map String.mk := by
  unfold cleanLines
  rw [cleanLinesL_eq_specThree]

/-- C6 counterexample: normalization is not idempotent — `<b>WEBVTT hi`
cleans to `WEBVTT hi`, which a second normalizer pass discards as a header
line. -/
theorem normalizer_idempotence_cex :
    cleanLinesL ("<b>WEBVTT hi").data = ["WEBVTT hi".data] ∧
    cleanLinesL (joinNl (cleanLinesL ("<b>WEBVTT hi").data)) = [] := by decide

/-- C6 amended: re-normalizing the newline-joined cleaned lines yields the
same sequence, provided no cleaned line re-triggers the discard tests
(header prefix, `-->` arrow, purely numeric). -/
theorem normalizer_conditional_idempotence (p : String)
    (h : ∀ l ∈ cleanLinesL p.data, headerish l = false) :
    cleanLinesL (joinNl (cleanLinesL p.data)) = cleanLinesL p.data := by
  cases hcs : cleanLinesL p.data with
  | nil => decide
  | cons c cs =>
    have hprops : ∀ l ∈ c :: cs,
        spaced l = true ∧ noTagB l = true ∧ 2 < l.length ∧ pyStrip l = l := by
      intro l hl
      exact cleanLinesL_mem_props (x := p.data) (by rw [hcs]; exact hl)
    have hnl : ∀ l ∈ c :: cs, '\n' ∉ l := fun l hl => spaced_no_nl (hprops l hl).1
    show cleanLinesL (joinNl (c :: cs)) = c :: cs
    unfold cleanLinesL
    rw [splitNl_joinNl (c :: cs) (by simp) hnl]
    apply filterMap_keepLineL_self
    intro l hl
    obtain ⟨h1, h2, h3, h4⟩ := hprops l hl
    exact keepLineL_roundtrip h1 h2 h3 h4 (h l (by rw [hcs]; exact hl))

/-- C6 witness: a payload whose cleaned lines re-normalize unchanged. -/
theorem normalizer_conditional_idempotence_witness :
    (∀ l ∈ cleanLinesL ("hello world\nfoo bar baz").data, headerish l = false) ∧
    cleanLinesL (joinNl (cleanLinesL ("hello world\nfoo bar baz").data)) =
      cleanLinesL ("hello world\nfoo bar baz").data :=
  ⟨by decide, normalizer_conditional_idempotence _ (by decide)⟩

/-- C8: invoked with any number of positional arguments other than two, the
entry point prints the usage message to stderr and exits with status 1,
without reaching the retrieval action. -/
theorem usage_exit_on_bad_argc (script : String) (args : List String)
    (h : args.length ≠ 2) :
    mainEntry (script :: args) = MainAction.usageExit 1 usageMsg := by
  unfold mainEntry
  rw [if_pos (by simp; omega)]

/-- C8 witness: zero positional arguments. -/
theorem usage_exit_on_bad_argc_witness :
    ([] : List String).length ≠ 2 ∧
    mainEntry ["clean_transcript.py"] = MainAction.usageExit 1 usageMsg :=
  ⟨by decide, usage_exit_on_bad_argc "clean_transcript.py" [] (by decide)⟩

/-- C9: the pipeline's output does not depend on the implementation of the
unordered seen-key set used by the dedup stage: any two lawful set
implementations give identical segment lists on every payload, so two runs
on equal payloads agree. -/
theorem pipeline_deterministic (S₁ S₂ : SetImpl) (v : String) :
    aggressiveCleanVttWith S₁ v = aggressiveCleanVttWith S₂ v := by
  rw [aggressiveCleanVttWith_def, aggressiveCleanVttWith_def]
  by_cases htl : cleanLinesL v.data = []
  · rw [if_pos htl, if_pos htl]
  · rw [if_neg htl, if_neg htl]
    unfold resultTextWith
    rw [uniqueWordsWith_eq S₁, uniqueWordsWith_eq S₂]

/-- C10: the segmenter conserves the word stream: splitting each emitted
sentence back into words and concatenating in order recovers exactly the
input word sequence. -/
theorem segmenter_conserves_words (t : String) :
    ((splitSentences t).map (fun s => pySplit s.data)).flatten = pySplit t.data := by
  have hgood : ∀ w ∈ pySplit t.data, w ≠ [] ∧ ∀ c ∈ w, isWs c = false :=
    fun w hw => pySplit_mem hw
  unfold splitSentences
  rw [splitSentencesGo_eq_chunks (pySplit t.data) []
    (by intro w hw; exact hgood w (by simpa using hw))]
  rw [List.map_map]
  have hmapid : (chunkGo [] (pySplit t.data)).map
      ((fun s => pySplit s.data) ∘ fun c => String.mk (joinSp c)) =
      (chunkGo [] (pySplit t.data)).map id := by
    apply List.map_congr_left
    intro c hc
    show pySplit (joinSp c) = c
    apply pySplit_joinSp
    intro w hw
    have hwmem : w ∈ (chunkGo [] (pySplit t.data)).flatten :=
      List.mem_flatten.mpr ⟨c, hc, hw⟩
    rw [chunkGo_flatten] at hwmem
    exact hgood w (by simpa using hwmem)
  rw [hmapid, List.map_id]
  rw [chunkGo_flatten]
  rfl

/-- C7: scenario A — dedup stream `["Hello", "world", "again"]`, one sentence
`"Hello world again"`, one segment `[0, 144)` with duration 144. -/
theorem scenario_a :
    cleanLines "Hello hello world\nworld again" = ["Hello hello world", "world again"] ∧
    uniqueWordsL (cleanLinesL ("Hello hello world\nworld again").data) =
      ["Hello".data, "world".data, "again".data] ∧
    splitSentences (String.mk (resultTextWith listSet
      (cleanLinesL ("Hello hello world\nworld again").data))) = ["Hello world again"] ∧
    aggressive_clean_vtt "Hello hello world\nworld again" =
      some [{ text := "Hello world again", start := 0, endT := 144, duration := 144 }] := by
  refine ⟨by decide, by decide, by decide, ?_⟩
  unfold aggressive_clean_vtt
  rw [aggressiveCleanVttWith_def, if_neg (by decide)]
  rw [show splitSentences (String.mk (resultTextWith listSet
      (cleanLinesL ("Hello hello world\nworld again").data))) = ["Hello world again"]
    by decide]
  rw [show synthesize ["Hello world again"] = some (idealSegs 1 0 ["Hello world again"]) from
    synthesizeGo_eq_ideal (by decide) ["Hello world again"] 0 (by decide)]
  have htext : pyStripS "Hello world again" = "Hello world again" := by decide
  have hseg : idealSegs 1 0 ["Hello world again"] =
      [{ text := "Hello world again", start := 0, endT := 144, duration := 144 }] := by
    simp only [idealSegs, total_duration, htext, List.cons.injEq, and_true, Segment.mk.injEq]
    norm_num
  rw [hseg]

end CleanTranscript
